import Mathlib

/-!
Verification of the grading and error-classification engine of the
needle-in-a-haystack evaluation tool.

The Python sources are shallowly embedded:

* `calculate_edit_distance` (grading_utils.py) — the Levenshtein dynamic
  program over a `(|A|+1) × (|B|+1)` table; the Damerau transposition block
  in the source is quoted out (a bare string literal), so the
  `allow_transposition` parameter is accepted but never read.
* `values_sequence_from_dict` / `grade_answers` (grading_utils.py) — key
  parsing, the all-or-nothing ordering policy, and the accuracy formula.
* `longest_common_subsequence` / `longest_common_subsequence_with_indices`
  (analyze_errors.py / analyze_position_accuracy.py) — the LCS dynamic
  program and its backtrace.
* the misorder / missing / hallucination classifiers (analyze_errors.py).

Dictionaries are embedded as association lists; machine integers are `Nat`
and `Int` (no overflow is possible in the modelled code paths); code that
can raise is embedded into `Option`, with `none` marking an uncaught
exception.
-/

namespace NIAH

/-! ## Levenshtein edit distance (grading_utils.calculate_edit_distance) -/

/-- Substitution cost used by the edit-distance fill step:
`0 if seq1[i-1] == seq2[j-1] else 1`. -/
def subCost [DecidableEq α] (x y : α) : Nat := if x = y then 0 else 1

/-- The classical Levenshtein recursion on list heads.  This is the
specification-side definition of "the classical Levenshtein distance"; the
table-filling source code is proved equal to it below. -/
def lev [DecidableEq α] : List α → List α → Nat
  | [], ys => ys.length
  | x :: xs, [] => (x :: xs).length
  | x :: xs, y :: ys =>
      min (lev xs (y :: ys) + 1)
        (min (lev (x :: xs) ys + 1) (lev xs ys + subCost x y))
  termination_by xs ys => (xs.length, ys.length)

/-- The table of `calculate_edit_distance`, given by its defining
recurrence: `dp[i][0] = i`, `dp[0][j] = j`, and
`dp[i][j] = min(dp[i-1][j]+1, dp[i][j-1]+1, dp[i-1][j-1]+cost)` where
`cost = 0 if seq1[i-1] == seq2[j-1] else 1`.  The loops of the source fill
the table in exactly this way, so the table is the unique solution of the
recurrence.  Out-of-range indices never arise for cells reachable from
`(len(seq1), len(seq2))`. -/
def dpED [DecidableEq α] (s1 s2 : List α) : Nat → Nat → Nat
  | 0, j => j
  | i+1, 0 => i+1
  | i+1, j+1 =>
      min (dpED s1 s2 i (j+1) + 1)
        (min (dpED s1 s2 (i+1) j + 1)
          (dpED s1 s2 i j + (if s1[i]? = s2[j]? then 0 else 1)))
  termination_by i j => (i, j)

/-- Embedding of `calculate_edit_distance(seq1, seq2, allow_transposition)`.
The transposition branch in the source is commented out (it is a quoted
string literal inside the loop), so the flag is never consulted. -/
def calculate_edit_distance [DecidableEq α]
    (seq1 seq2 : List α) (allow_transposition : Bool) : Nat :=
  dpED seq1 seq2 seq1.length seq2.length

/-! ### Edit scripts

`EditStep a b` holds when `b` arises from `a` by one elementary edit
(deletion, insertion, or replacement of a single element); `Reaches n a b`
holds when `b` arises from `a` by `n` such edits.  `lev` is proved to be
the length of a shortest edit script, from which symmetry under reversal
and the triangle inequality follow. -/

inductive EditStep : List α → List α → Prop where
  | del (u v : List α) (x : α) : EditStep (u ++ x :: v) (u ++ v)
  | ins (u v : List α) (x : α) : EditStep (u ++ v) (u ++ x :: v)
  | rep (u v : List α) (x y : α) : EditStep (u ++ x :: v) (u ++ y :: v)

inductive Reaches : Nat → List α → List α → Prop where
  | refl (a : List α) : Reaches 0 a a
  | step {a b c : List α} {n : Nat} :
      EditStep a b → Reaches n b c → Reaches (n + 1) a c

/-! ## Key ordering and value sequences
(`grading_utils.grade_answers.values_sequence_from_dict`)

An `AnswerSet` (a JSON object) is embedded as an association list
`List (String × V)`; a real dictionary has `Nodup` keys.  `none` models an
uncaught Python exception. -/

/-- Value of a nonempty run of decimal digits. -/
def digitsVal (l : List Char) : Nat :=
  l.foldl (fun acc c => acc * 10 + (c.toNat - '0'.toNat)) 0

/-- Nonempty and all decimal digits. -/
def isDigits (l : List Char) : Bool := !l.isEmpty && l.all (·.isDigit)

/-- Python `int(k)` on the fragment of key strings this repository
produces: an optional sign followed by a nonempty run of ASCII decimal
digits.  (Full Python `int` additionally strips whitespace and accepts
underscores and non-ASCII digits; no such key occurs in this system.)
`none` models `ValueError`. -/
def parseIntStr (s : String) : Option Int :=
  match s.data with
  | '-' :: rest => if isDigits rest then some (-(digitsVal rest : Int)) else none
  | '+' :: rest => if isDigits rest then some ((digitsVal rest : Int)) else none
  | l => if isDigits l then some ((digitsVal l : Int)) else none

/-- Lexicographic comparison of character lists by code point: the order
Python's `sorted` uses on `str`. -/
def charListLe : List Char → List Char → Bool
  | [], _ => true
  | _ :: _, [] => false
  | c :: cs, d :: ds =>
      if c.toNat < d.toNat then true
      else if c.toNat = d.toNat then charListLe cs ds
      else false

/-- Python's `<=` on strings (lexicographic by code point). -/
def strLe (a b : String) : Bool := charListLe a.data b.data

/-- `[int(k) for k in ks]`; `none` models the comprehension raising
`ValueError` on the first unparsable key. -/
def parseAll : List String → Option (List Int)
  | [] => some []
  | k :: ks =>
      match parseIntStr k, parseAll ks with
      | some n, some ns => some (n :: ns)
      | _, _ => none

/-- `[d[k] for k in ks]`; `none` models a `KeyError`. -/
def seqOf (d : List (String × V)) : List String → Option (List V)
  | [] => some []
  | k :: ks =>
      match List.lookup k d, seqOf d ks with
      | some v, some vs => some (v :: vs)
      | _, _ => none

/-- Embedding of `values_sequence_from_dict` in its `order_by_key=True`
mode (the only mode `grade_answers` uses).  The `try` block parses every
key; on any `ValueError`/`TypeError` it falls back to sorting the raw keys
lexicographically.  In the numeric branch each parsed key is re-serialized
(`d[str(k)]`); a failed lookup there is a `KeyError`, which the `except`
clause does not catch, so the whole call fails (`none`). -/
def values_sequence_from_dict (d : List (String × V)) : Option (List V) :=
  match parseAll (d.map Prod.fst) with
  | some ints => seqOf d ((ints.insertionSort (· ≤ ·)).map toString)
  | none => seqOf d ((d.map Prod.fst).insertionSort (fun a b => strLe a b))

/-- Modelled from the spec: the value sequence "sorted ascending
numerically" — the entries themselves ordered by their parsed integer key,
values then extracted. -/
def specNumericOrder (d : List (String × V)) : List V :=
  ((d.filterMap (fun p => (parseIntStr p.1).map (fun n => (n, p.2)))).insertionSort
      (fun p q => p.1 ≤ q.1)).map Prod.snd

/-- Modelled from the spec: the value sequence with the entries ordered by
lexicographic comparison of their raw keys. -/
def specLexOrder (d : List (String × V)) : List V :=
  (d.insertionSort (fun p q => strLe p.1 q.1)).map Prod.snd

/-- The `accuracy` formula of `grade_answers`:
`(1 - distance/maxLen) * 100`, or `0.0` when `maxLen == 0`.  Rational
arithmetic models the Python float expression (all values here are exact
ratios of small integers). -/
def accuracyOf [DecidableEq V] (s t : List V) : ℚ :=
  if 0 < max s.length t.length then
    (1 - (calculate_edit_distance s t true : ℚ) / (max s.length t.length : ℚ)) * 100
  else 0

/-- The accuracy field of `grade_answers(student, standard)`: the two
early-out branches for an empty reference or an empty response return
`0.0`; otherwise the value sequences are built and the edit-distance
formula applies.  `none` models an uncaught exception while building the
sequences. -/
def grade_accuracy [DecidableEq V] (student standard : List (String × V)) :
    Option ℚ :=
  if standard = [] then some 0
  else if student = [] then some 0
  else
    match values_sequence_from_dict standard, values_sequence_from_dict student with
    | some ss, some ts => some (accuracyOf ss ts)
    | _, _ => none

/-! ## Longest common subsequence
(`analyze_errors.longest_common_subsequence` and
`analyze_position_accuracy.longest_common_subsequence_with_indices`)

Both scripts fill the same DP table and then backtrace from
`(len(seq1), len(seq2))`; one collects matched values of `seq1`, the other
collects matched indices into `seq1`. -/

/-- The LCS table: `dp[i][j]` per the fill loop
(`dp[i][j] = dp[i-1][j-1]+1` on a match, else
`max(dp[i-1][j], dp[i][j-1])`); the loops fill the unique solution of this
recurrence.  Cells reachable from `(len(seq1), len(seq2))` never index out
of range. -/
def lcsDP [DecidableEq α] (s1 s2 : List α) : Nat → Nat → Nat
  | 0, _ => 0
  | _+1, 0 => 0
  | i+1, j+1 =>
      if s1[i]? = s2[j]? then lcsDP s1 s2 i j + 1
      else max (lcsDP s1 s2 i (j+1)) (lcsDP s1 s2 (i+1) j)
  termination_by i j => (i, j)

/-- Backtrace of `longest_common_subsequence` (analyze_errors.py): on a
match take the diagonal and record `seq1[i-1]`; otherwise move up
(`i -= 1`) only when `dp[i-1][j] > dp[i][j-1]`, and move left (`j -= 1`)
in every other case, ties included.  The Python loop appends matches and
reverses at the end; recursing first and appending afterwards produces the
same (already reversed) order. -/
def lcsBT [DecidableEq α] (s1 s2 : List α) : Nat → Nat → List α
  | 0, _ => []
  | _+1, 0 => []
  | i+1, j+1 =>
      match s1[i]?, s2[j]? with
      | some a, some b =>
          if a = b then lcsBT s1 s2 i j ++ [a]
          else if lcsDP s1 s2 i (j+1) > lcsDP s1 s2 (i+1) j then
            lcsBT s1 s2 i (j+1)
          else lcsBT s1 s2 (i+1) j
      | _, _ => []
  termination_by i j => (i, j)

/-- `longest_common_subsequence(seq1, seq2)` of analyze_errors.py. -/
def longest_common_subsequence [DecidableEq α] (s1 s2 : List α) : List α :=
  lcsBT s1 s2 s1.length s2.length

/-- Backtrace of `longest_common_subsequence_with_indices`
(analyze_position_accuracy.py): identical walk, recording `i-1` instead of
`seq1[i-1]`. -/
def lcsBTIdx [DecidableEq α] (s1 s2 : List α) : Nat → Nat → List Nat
  | 0, _ => []
  | _+1, 0 => []
  | i+1, j+1 =>
      match s1[i]?, s2[j]? with
      | some a, some b =>
          if a = b then lcsBTIdx s1 s2 i j ++ [i]
          else if lcsDP s1 s2 i (j+1) > lcsDP s1 s2 (i+1) j then
            lcsBTIdx s1 s2 i (j+1)
          else lcsBTIdx s1 s2 (i+1) j
      | _, _ => []
  termination_by i j => (i, j)

/-- `longest_common_subsequence_with_indices(seq1, seq2)` — the spec's
`alignIndices`. -/
def longest_common_subsequence_with_indices [DecidableEq α]
    (s1 s2 : List α) : List Nat :=
  lcsBTIdx s1 s2 s1.length s2.length

/-- Modelled from the spec's words: the same backtrace but with ties
`dp[i-1][j] == dp[i][j-1]` broken by decrementing the row index `i`
(so the row moves whenever `dp[i-1][j] >= dp[i][j-1]`). -/
def lcsBTIdxSpecTie [DecidableEq α] (s1 s2 : List α) : Nat → Nat → List Nat
  | 0, _ => []
  | _+1, 0 => []
  | i+1, j+1 =>
      match s1[i]?, s2[j]? with
      | some a, some b =>
          if a = b then lcsBTIdxSpecTie s1 s2 i j ++ [i]
          else if lcsDP s1 s2 i (j+1) ≥ lcsDP s1 s2 (i+1) j then
            lcsBTIdxSpecTie s1 s2 i (j+1)
          else lcsBTIdxSpecTie s1 s2 (i+1) j
      | _, _ => []
  termination_by i j => (i, j)

/-- Modelled from the spec's words: `alignIndices` with the spec's claimed
row-preferring tie-break. -/
def alignIndicesSpecTie [DecidableEq α] (s1 s2 : List α) : List Nat :=
  lcsBTIdxSpecTie s1 s2 s1.length s2.length

/-! ## The error classifiers (analyze_errors.py)

A parsed record is a pair of dictionaries with integer keys; dictionaries
are association lists `List (Nat × V)`. -/

/-- The raw key list of a dictionary. -/
def keysOf (d : List (Nat × V)) : List Nat := d.map Prod.fst

/-- `sorted([int(k) for k in d.keys()])` — keys in ascending numeric
order. -/
def sortedKeys (d : List (Nat × V)) : List Nat :=
  (keysOf d).insertionSort (· ≤ ·)

/-- The value-correctness test used by all three analyzers:
`k_str in standard_answers and model_answers[k_str] == standard_answers[k_str]`. -/
def isValueCorrect [DecidableEq V] (std rsp : List (Nat × V)) (k : Nat) : Bool :=
  match List.lookup k std, List.lookup k rsp with
  | some sv, some rv => decide (rv = sv)
  | _, _ => false

/-- `correct_model_keys`: response keys in ascending order whose value is
correct. -/
def correct_model_keys [DecidableEq V] (std rsp : List (Nat × V)) : List Nat :=
  (sortedKeys rsp).filter (fun k => isValueCorrect std rsp k)

/-- The anchors: `longest_common_subsequence(standard_keys, correct_model_keys)`. -/
def anchorKeys [DecidableEq V] (std rsp : List (Nat × V)) : List Nat :=
  longest_common_subsequence (sortedKeys std) (correct_model_keys std rsp)

/-- `misorder_keys`: value-correct keys not in the LCS. -/
def misorder_keys [DecidableEq V] (std rsp : List (Nat × V)) : List Nat :=
  (correct_model_keys std rsp).filter (fun k => !decide (k ∈ anchorKeys std rsp))

/-- The `correct_keys` set of `analyze_missing_errors` (iterating the raw
response items; the `isdigit` test always holds for integer keys). -/
def correct_keys_missing [DecidableEq V] (std rsp : List (Nat × V)) : List Nat :=
  (keysOf rsp).filter (fun k => isValueCorrect std rsp k)

/-- `missing` keys: standard keys with no value-correct occurrence. -/
def missing_keys [DecidableEq V] (std rsp : List (Nat × V)) : List Nat :=
  (sortedKeys std).filter (fun k => !decide (k ∈ correct_keys_missing std rsp))

/-- `hallucination_keys`: response keys absent from the standard key set. -/
def hallucination_keys [DecidableEq V] (std rsp : List (Nat × V)) : List Nat :=
  (sortedKeys rsp).filter (fun k => !decide (k ∈ sortedKeys std))

/-- The downward scan
`for i in range(halluc_pos - 1, -1, -1): if all_model_keys[i] in lcs: ...`:
first anchor value strictly below index `n`, scanning downward. -/
def scanLeft (mk anc : List Nat) : Nat → Option Nat
  | 0 => none
  | i+1 =>
      match mk[i]? with
      | some v => if v ∈ anc then some v else scanLeft mk anc i
      | none => scanLeft mk anc i

/-- Helper for the upward scan, structurally recursive on the number `c`
of indices still to inspect. -/
def scanRightAux (mk anc : List Nat) : Nat → Nat → Option Nat
  | 0, _ => none
  | c+1, i =>
      match mk[i]? with
      | some v => if v ∈ anc then some v else scanRightAux mk anc c (i+1)
      | none => none

/-- The upward scan
`for i in range(halluc_pos + 1, len(all_model_keys)): ...`: first anchor
value at index `i` or above, scanning upward (the loop inspects the
`len(all_model_keys) - i` remaining indices). -/
def scanRight (mk anc : List Nat) (i : Nat) : Option Nat :=
  scanRightAux mk anc (mk.length - i) i

/-- The interval emitted for one hallucinated key `h` (or `none` when the
code's skip branch fires because no anchor exists on either side).  `0`
and `41` are the source's hardcoded edge sentinels. -/
def interval_for_key [DecidableEq V] (std rsp : List (Nat × V)) (h : Nat) :
    Option (Nat × Nat) :=
  let mk := sortedKeys rsp
  let anc := anchorKeys std rsp
  let pos := mk.indexOf h
  match scanLeft mk anc pos, scanRight mk anc (pos + 1) with
  | none, none => none
  | none, some r => some (0, r)
  | some l, none => some (l, 41)
  | some l, some r => some (l, r)

/-- All intervals a record contributes (one per non-skipped hallucinated
key, in ascending key order). -/
def hallucination_intervals [DecidableEq V] (std rsp : List (Nat × V)) :
    List (Nat × Nat) :=
  (hallucination_keys std rsp).filterMap (interval_for_key std rsp)

/-- Accumulated frequency of one interval over a batch of records
(`hallucination_frequency[interval] += 1` per emission). -/
def halluc_frequency [DecidableEq V]
    (batch : List (List (Nat × V) × List (Nat × V))) (iv : Nat × Nat) : Nat :=
  ((batch.map (fun r => hallucination_intervals r.1 r.2)).flatten).count iv

/-- The probability column written by `insert_interval_error_stats`:
`frequency / total_records * 100` (0.0 when there are no records), with
`total_records` incremented once per classified record. -/
def halluc_probability [DecidableEq V]
    (batch : List (List (Nat × V) × List (Nat × V))) (iv : Nat × Nat) : ℚ :=
  if 0 < batch.length then
    (halluc_frequency batch iv : ℚ) / (batch.length : ℚ) * 100
  else 0

/-- There is an anchor at position `i` of the (sorted) response-key list. -/
def anchorAt (mk anc : List Nat) (i : Nat) : Prop :=
  ∃ v, mk[i]? = some v ∧ v ∈ anc

/-! ## Theorems -/

/-! ### Basic equations and bounds for `lev` -/

theorem lev_nil_left [DecidableEq α] (ys : List α) : lev ([] : List α) ys = ys.length := by
  simp [lev]

theorem lev_nil_right [DecidableEq α] (xs : List α) : lev xs ([] : List α) = xs.length := by
  cases xs <;> simp [lev]

theorem lev_cons_cons [DecidableEq α] (x y : α) (xs ys : List α) :
    lev (x :: xs) (y :: ys) =
      min (lev xs (y :: ys) + 1)
        (min (lev (x :: xs) ys + 1) (lev xs ys + subCost x y)) := by
  simp [lev]

theorem subCost_le_one [DecidableEq α] (x y : α) : subCost x y ≤ 1 := by
  unfold subCost; split <;> omega

theorem subCost_comm [DecidableEq α] (x y : α) : subCost x y = subCost y x := by
  unfold subCost
  by_cases h : x = y <;> simp [h, Ne.symm, eq_comm]

theorem lev_self [DecidableEq α] (s : List α) : lev s s = 0 := by
  induction s with
  | nil => simp [lev]
  | cons x xs ih =>
      rw [lev_cons_cons]
      have h : subCost x x = 0 := by simp [subCost]
      omega

/-- Deleting the head of the left sequence costs at most one. -/
theorem lev_cons_le_left [DecidableEq α] (x : α) (xs ys : List α) :
    lev (x :: xs) ys ≤ lev xs ys + 1 := by
  cases ys with
  | nil => simp [lev_nil_right]
  | cons y ys => rw [lev_cons_cons]; omega

/-- Inserting the head of the right sequence costs at most one. -/
theorem lev_cons_le_right [DecidableEq α] (y : α) (xs ys : List α) :
    lev xs (y :: ys) ≤ lev xs ys + 1 := by
  cases xs with
  | nil => simp [lev_nil_left]
  | cons x xs => rw [lev_cons_cons]; omega

theorem lev_le_cons_cons [DecidableEq α] (x y : α) (xs ys : List α) :
    lev (x :: xs) (y :: ys) ≤ lev xs ys + subCost x y := by
  rw [lev_cons_cons]; omega

/-- Removing the head of the left sequence decreases the distance by at
most one. -/
theorem lev_le_cons_left [DecidableEq α] (x : α) (xs ys : List α) :
    lev xs ys ≤ lev (x :: xs) ys + 1 := by
  induction ys generalizing xs with
  | nil => simp only [lev_nil_right, List.length_cons]; omega
  | cons y ys ih =>
      rw [lev_cons_cons]
      have h1 : lev xs (y :: ys) ≤ lev xs ys + 1 := lev_cons_le_right y xs ys
      have h2 : lev xs ys ≤ lev (x :: xs) ys + 1 := ih xs
      omega

/-- Removing the head of the right sequence decreases the distance by at
most one. -/
theorem lev_le_cons_right [DecidableEq α] (y : α) (xs ys : List α) :
    lev xs ys ≤ lev xs (y :: ys) + 1 := by
  induction xs generalizing ys with
  | nil => simp only [lev_nil_left, List.length_cons]; omega
  | cons x xs ih =>
      rw [lev_cons_cons]
      have h1 : lev (x :: xs) ys ≤ lev xs ys + 1 := lev_cons_le_left x xs ys
      have h2 : lev xs ys ≤ lev xs (y :: ys) + 1 := ih ys
      omega

theorem lev_le_max_length [DecidableEq α] (xs ys : List α) :
    lev xs ys ≤ max xs.length ys.length := by
  induction xs generalizing ys with
  | nil => simp [lev_nil_left]
  | cons x xs ih =>
      cases ys with
      | nil => simp [lev_nil_right]
      | cons y ys =>
          have h := lev_le_cons_cons x y xs ys
          have h2 := ih ys
          have h3 := subCost_le_one x y
          simp only [List.length_cons]
          omega

theorem lev_symm [DecidableEq α] (xs ys : List α) : lev xs ys = lev ys xs := by
  induction xs, ys using lev.induct with
  | case1 ys => rw [lev_nil_left, lev_nil_right]
  | case2 x xs => rw [lev_nil_left, lev_nil_right]
  | case3 x xs y ys ih1 ih2 ih3 =>
      rw [lev_cons_cons, lev_cons_cons, ih1, ih2, ih3, subCost_comm]
      rw [← Nat.min_assoc, ← Nat.min_assoc, Nat.min_comm (lev (y :: ys) xs + 1)]

theorem editStep_cons {a b : List α} (x : α) (h : EditStep a b) :
    EditStep (x :: a) (x :: b) := by
  cases h with
  | del u v y => exact EditStep.del (x :: u) v y
  | ins u v y => exact EditStep.ins (x :: u) v y
  | rep u v y z => exact EditStep.rep (x :: u) v y z

theorem reaches_cons {a b : List α} {n : Nat} (x : α) (h : Reaches n a b) :
    Reaches n (x :: a) (x :: b) := by
  induction h with
  | refl a => exact Reaches.refl _
  | step s _ ih => exact Reaches.step (editStep_cons x s) ih

theorem Reaches.trans {a b c : List α} {m n : Nat}
    (h1 : Reaches m a b) (h2 : Reaches n b c) : Reaches (m + n) a c := by
  induction h1 with
  | refl a => simpa using h2
  | step s _ ih =>
      have := Reaches.step s (ih h2)
      simpa [Nat.add_right_comm] using this

theorem Reaches.snoc {a b c : List α} {n : Nat}
    (h1 : Reaches n a b) (h2 : EditStep b c) : Reaches (n + 1) a c :=
  h1.trans (Reaches.step h2 (Reaches.refl _))

/-- Building any list from the empty list takes one insertion per element. -/
theorem reaches_nil (b : List α) : Reaches b.length ([] : List α) b := by
  induction b with
  | nil => exact Reaches.refl _
  | cons y b ih =>
      exact Reaches.step (EditStep.ins [] [] y) (reaches_cons y ih)

/-- Deleting every element reaches the empty list. -/
theorem reaches_nil_right (a : List α) : Reaches a.length a ([] : List α) := by
  induction a with
  | nil => exact Reaches.refl _
  | cons x a ih => exact Reaches.step (EditStep.del [] a x) ih

/-- There is an edit script of length `lev a b` from `a` to `b`. -/
theorem reaches_lev [DecidableEq α] (a b : List α) : Reaches (lev a b) a b := by
  induction a, b using lev.induct with
  | case1 b => rw [lev_nil_left]; exact reaches_nil b
  | case2 x xs => rw [lev_nil_right]; exact reaches_nil_right _
  | case3 x xs y ys ih1 ih2 ih3 =>
      have hval : lev (x :: xs) (y :: ys) = lev xs (y :: ys) + 1 ∨
          lev (x :: xs) (y :: ys) = lev (x :: xs) ys + 1 ∨
          lev (x :: xs) (y :: ys) = lev xs ys + subCost x y := by
        rw [lev_cons_cons]; omega
      rcases hval with h | h | h
      · rw [h]
        exact Reaches.step (EditStep.del [] xs x) ih1
      · rw [h]
        exact ih2.snoc (EditStep.ins [] ys y)
      · rw [h]
        by_cases hxy : x = y
        · subst hxy
          simpa [subCost] using reaches_cons x ih3
        · have : subCost x y = 1 := by simp [subCost, hxy]
          rw [this]
          exact Reaches.step (EditStep.rep [] xs x y) (reaches_cons y ih3)

/-- If replacing `t` by `s` costs at most one extra edit against every
target, the same holds after prepending a common head. -/
theorem lev_cons_le_cons_of [DecidableEq α] {s t : List α}
    (H : ∀ c : List α, lev s c ≤ lev t c + 1) (z : α) :
    ∀ c : List α, lev (z :: s) c ≤ lev (z :: t) c + 1 := by
  intro c
  induction c with
  | nil =>
      have h := H []
      simp only [lev_nil_right, List.length_cons] at *
      omega
  | cons w cs ih =>
      have b1 := lev_cons_le_left z s (w :: cs)
      have b2 := lev_cons_le_right w (z :: s) cs
      have b3 := lev_le_cons_cons z w s cs
      have h1 := H (w :: cs)
      have h2 := H cs
      have hsc := subCost_le_one z w
      rw [lev_cons_cons z w t cs]
      omega

/-- Replacing the head element costs at most one extra edit. -/
theorem lev_rep_head_le [DecidableEq α] (v : List α) (x y : α) :
    ∀ c : List α, lev (y :: v) c ≤ lev (x :: v) c + 1 := by
  intro c
  induction c with
  | nil => simp only [lev_nil_right, List.length_cons]; omega
  | cons w cs ih =>
      have b1 := lev_cons_le_left y v (w :: cs)
      have b2 := lev_cons_le_right w (y :: v) cs
      have b3 := lev_le_cons_cons y w v cs
      have hsc := subCost_le_one y w
      rw [lev_cons_cons x w v cs]
      omega

theorem lev_del_le [DecidableEq α] (u : List α) (v : List α) (x : α) :
    ∀ c : List α, lev (u ++ v) c ≤ lev (u ++ x :: v) c + 1 := by
  induction u with
  | nil => exact fun c => lev_le_cons_left x v c
  | cons z u ih => exact lev_cons_le_cons_of ih z

theorem lev_ins_le [DecidableEq α] (u : List α) (v : List α) (x : α) :
    ∀ c : List α, lev (u ++ x :: v) c ≤ lev (u ++ v) c + 1 := by
  induction u with
  | nil => exact fun c => lev_cons_le_left x v c
  | cons z u ih => exact lev_cons_le_cons_of ih z

theorem lev_rep_le [DecidableEq α] (u : List α) (v : List α) (x y : α) :
    ∀ c : List α, lev (u ++ y :: v) c ≤ lev (u ++ x :: v) c + 1 := by
  induction u with
  | nil => exact lev_rep_head_le v x y
  | cons z u ih => exact lev_cons_le_cons_of ih z

/-- One edit on the left argument changes the distance by at most one. -/
theorem lev_editStep_le [DecidableEq α] {a a' : List α}
    (h : EditStep a a') (c : List α) : lev a' c ≤ lev a c + 1 := by
  cases h with
  | del u v x => exact lev_del_le u v x c
  | ins u v x => exact lev_ins_le u v x c
  | rep u v x y => exact lev_rep_le u v x y c

/-- The distance to a fixed target grows by at most the length of any edit
script applied on the other side. -/
theorem lev_le_of_reaches [DecidableEq α] {b c : List α} {n : Nat}
    (h : Reaches n b c) : ∀ a : List α, lev a c ≤ lev a b + n := by
  induction h with
  | refl b => intro a; omega
  | @step p q r m s _ ih =>
      intro a
      have h1 := ih a
      have h2 : lev a q ≤ lev a p + 1 := by
        rw [lev_symm a q, lev_symm a p]
        exact lev_editStep_le s a
      omega

/-- Triangle inequality for the Levenshtein distance. -/
theorem lev_triangle [DecidableEq α] (a b c : List α) :
    lev a c ≤ lev a b + lev b c := by
  have h := lev_le_of_reaches (reaches_lev b c) a
  omega

theorem Reaches.le_lev [DecidableEq α] {a b : List α} {n : Nat}
    (h : Reaches n a b) : lev a b ≤ n := by
  have := lev_le_of_reaches h a
  simpa [lev_self] using this

theorem editStep_reverse {a b : List α} (h : EditStep a b) :
    EditStep a.reverse b.reverse := by
  cases h with
  | del u v x =>
      have h1 : (u ++ x :: v).reverse = v.reverse ++ x :: u.reverse := by
        simp
      have h2 : (u ++ v).reverse = v.reverse ++ u.reverse := by simp
      rw [h1, h2]
      exact EditStep.del _ _ _
  | ins u v x =>
      have h1 : (u ++ x :: v).reverse = v.reverse ++ x :: u.reverse := by
        simp
      have h2 : (u ++ v).reverse = v.reverse ++ u.reverse := by simp
      rw [h2, h1]
      exact EditStep.ins _ _ _
  | rep u v x y =>
      have h1 : (u ++ x :: v).reverse = v.reverse ++ x :: u.reverse := by
        simp
      have h2 : (u ++ y :: v).reverse = v.reverse ++ y :: u.reverse := by
        simp
      rw [h1, h2]
      exact EditStep.rep _ _ _ _

theorem reaches_reverse {a b : List α} {n : Nat} (h : Reaches n a b) :
    Reaches n a.reverse b.reverse := by
  induction h with
  | refl a => exact Reaches.refl _
  | step s _ ih => exact Reaches.step (editStep_reverse s) ih

/-- Levenshtein distance is invariant under reversing both sequences. -/
theorem lev_reverse [DecidableEq α] (a b : List α) :
    lev a.reverse b.reverse = lev a b := by
  have h1 : lev a.reverse b.reverse ≤ lev a b :=
    (reaches_reverse (reaches_lev a b)).le_lev
  have h2 : lev a b ≤ lev a.reverse b.reverse := by
    have := (reaches_reverse (reaches_lev a.reverse b.reverse)).le_lev
    simpa using this
  omega

/-! ### The source's dynamic program computes the Levenshtein distance -/

/-- Cell `(i, j)` of the source's table is the Levenshtein distance between
the (reversed) length-`i` prefix of `seq1` and the (reversed) length-`j`
prefix of `seq2`. -/
theorem dpED_eq_lev [DecidableEq α] (s1 s2 : List α) :
    ∀ i j, i ≤ s1.length → j ≤ s2.length →
      dpED s1 s2 i j = lev ((s1.take i).reverse) ((s2.take j).reverse) := by
  intro i j
  induction i, j using dpED.induct s1 s2 with
  | case1 j =>
      intro _ hj
      rw [List.take_zero, List.reverse_nil, lev_nil_left]
      simp [dpED, Nat.min_eq_left hj]
  | case2 i =>
      intro hi _
      rw [List.take_zero, List.reverse_nil, lev_nil_right]
      simp [dpED, Nat.min_eq_left hi]
  | case3 i j ih1 ih2 ih3 =>
      intro hi hj
      have hi' : i < s1.length := by omega
      have hj' : j < s2.length := by omega
      have ha : s1[i]? = some s1[i] := List.getElem?_eq_getElem hi'
      have hb : s2[j]? = some s2[j] := List.getElem?_eq_getElem hj'
      have ht1 : (s1.take (i + 1)).reverse = s1[i] :: (s1.take i).reverse := by
        rw [List.take_succ, ha]
        simp
      have ht2 : (s2.take (j + 1)).reverse = s2[j] :: (s2.take j).reverse := by
        rw [List.take_succ, hb]
        simp
      rw [ht1, ht2, lev_cons_cons]
      rw [show dpED s1 s2 (i + 1) (j + 1) =
          min (dpED s1 s2 i (j + 1) + 1)
            (min (dpED s1 s2 (i + 1) j + 1)
              (dpED s1 s2 i j + (if s1[i]? = s2[j]? then 0 else 1))) from by
        rw [dpED]]
      rw [ih1 (by omega) hj, ih2 hi (by omega), ih3 (by omega) (by omega)]
      rw [ht2, ht1]
      have hcost : (if s1[i]? = s2[j]? then 0 else 1) = subCost s1[i] s2[j] := by
        rw [ha, hb, subCost]
        simp
      rw [hcost]

/-- `calculate_edit_distance` computes the classical Levenshtein distance,
for either value of the transposition flag. -/
theorem calculate_edit_distance_eq_lev [DecidableEq α]
    (s1 s2 : List α) (b : Bool) :
    calculate_edit_distance s1 s2 b = lev s1 s2 := by
  unfold calculate_edit_distance
  rw [dpED_eq_lev s1 s2 s1.length s2.length (le_refl _) (le_refl _)]
  rw [List.take_length, List.take_length, lev_reverse]

/-! ### Lookup, `seqOf`, `parseAll`, and sorting lemmas -/

theorem lookup_isSome_of_mem_keys [BEq κ] [LawfulBEq κ] {d : List (κ × V)}
    {k : κ} (h : k ∈ d.map Prod.fst) : (List.lookup k d).isSome := by
  induction d with
  | nil => simp at h
  | cons p d ih =>
      obtain ⟨k', v⟩ := p
      by_cases hk : k = k'
      · subst hk; simp [List.lookup]
      · have hbeq : (k == k') = false := beq_eq_false_iff_ne.mpr hk
        simp only [List.map_cons, List.mem_cons] at h
        rcases h with h | h
        · exact absurd h hk
        · simpa [List.lookup, hbeq] using ih h

theorem lookup_eq_some_of_mem [BEq κ] [LawfulBEq κ] {d : List (κ × V)}
    (hnd : (d.map Prod.fst).Nodup) {k : κ} {v : V} (h : (k, v) ∈ d) :
    List.lookup k d = some v := by
  induction d with
  | nil => simp at h
  | cons p d ih =>
      obtain ⟨k', v'⟩ := p
      simp only [List.map_cons, List.nodup_cons] at hnd
      rcases List.mem_cons.mp h with heq | hmem
      · cases heq
        simp [List.lookup]
      · have hk : k ≠ k' := by
          rintro rfl
          exact hnd.1 (List.mem_map.mpr ⟨(k, v), hmem, rfl⟩)
        have hbeq : (k == k') = false := beq_eq_false_iff_ne.mpr hk
        simp [List.lookup, hbeq, ih hnd.2 hmem]

theorem seqOf_eq_map {d : List (String × V)} :
    ∀ {ps : List (String × V)}, (∀ p ∈ ps, List.lookup p.1 d = some p.2) →
      seqOf d (ps.map Prod.fst) = some (ps.map Prod.snd) := by
  intro ps h
  induction ps with
  | nil => simp [seqOf]
  | cons p ps ih =>
      have h1 := h p (by simp)
      have h2 := ih (fun q hq => h q (by simp [hq]))
      simp [seqOf, h1, h2]

theorem seqOf_eq_none_iff {d : List (String × V)} : ∀ {ks : List String},
    seqOf d ks = none ↔ ∃ k ∈ ks, List.lookup k d = none := by
  intro ks
  induction ks with
  | nil => simp [seqOf]
  | cons k ks ih =>
      have hstep : seqOf d (k :: ks) = none ↔
          (List.lookup k d = none ∨ seqOf d ks = none) := by
        rcases hl : List.lookup k d with _ | v <;>
          rcases hs : seqOf d ks with _ | vs <;> simp [seqOf, hl, hs]
      rw [hstep, ih, List.exists_mem_cons_iff]

theorem seqOf_length {d : List (String × V)} :
    ∀ {ks : List String} {vs : List V}, seqOf d ks = some vs →
      vs.length = ks.length := by
  intro ks
  induction ks with
  | nil =>
      intro vs h
      simp only [seqOf] at h
      cases h
      rfl
  | cons k ks ih =>
      intro vs h
      rcases hl : List.lookup k d with _ | v <;>
        rcases hs : seqOf d ks with _ | vs' <;> simp [seqOf, hl, hs] at h
      rw [← h]
      simp [ih hs]

theorem parseAll_eq_filterMap : ∀ {ks : List String},
    (∀ k ∈ ks, (parseIntStr k).isSome) →
      parseAll ks = some (ks.filterMap parseIntStr) := by
  intro ks h
  induction ks with
  | nil => simp [parseAll]
  | cons k ks ih =>
      obtain ⟨n, hn⟩ := Option.isSome_iff_exists.mp (h k (by simp))
      have h2 := ih (fun q hq => h q (by simp [hq]))
      simp [parseAll, hn, h2, List.filterMap_cons]

theorem parseAll_eq_none_iff : ∀ {ks : List String},
    parseAll ks = none ↔ ∃ k ∈ ks, parseIntStr k = none := by
  intro ks
  induction ks with
  | nil => simp [parseAll]
  | cons k ks ih =>
      have hstep : parseAll (k :: ks) = none ↔
          (parseIntStr k = none ∨ parseAll ks = none) := by
        rcases hp : parseIntStr k with _ | n <;>
          rcases ha : parseAll ks with _ | ns <;> simp [parseAll, hp, ha]
      rw [hstep, ih, List.exists_mem_cons_iff]

/-! ### Sorting the keys commutes with sorting the entries -/

theorem map_fst_orderedInsert_int (p : Int × V) (l : List (Int × V)) :
    (List.orderedInsert (fun p q : Int × V => p.1 ≤ q.1) p l).map Prod.fst
      = List.orderedInsert (· ≤ ·) p.1 (l.map Prod.fst) := by
  induction l with
  | nil => simp [List.orderedInsert]
  | cons q l ih =>
      by_cases h : p.1 ≤ q.1
      · simp [List.orderedInsert, h]
      · simp [List.orderedInsert, h, ih]

theorem map_fst_insertionSort_int (l : List (Int × V)) :
    (l.insertionSort (fun p q : Int × V => p.1 ≤ q.1)).map Prod.fst
      = (l.map Prod.fst).insertionSort (· ≤ ·) := by
  induction l with
  | nil => simp
  | cons p l ih => simp [List.insertionSort, map_fst_orderedInsert_int, ih]

theorem map_fst_orderedInsert_str (p : String × V) (l : List (String × V)) :
    (List.orderedInsert (fun p q : String × V => strLe p.1 q.1) p l).map Prod.fst
      = List.orderedInsert (fun a b => strLe a b) p.1 (l.map Prod.fst) := by
  induction l with
  | nil => simp [List.orderedInsert]
  | cons q l ih =>
      by_cases h : strLe p.1 q.1
      · simp [List.orderedInsert, h]
      · simp [List.orderedInsert, h, ih]

theorem map_fst_insertionSort_str (l : List (String × V)) :
    (l.insertionSort (fun p q : String × V => strLe p.1 q.1)).map Prod.fst
      = (l.map Prod.fst).insertionSort (fun a b => strLe a b) := by
  induction l with
  | nil => simp
  | cons p l ih => simp [List.insertionSort, map_fst_orderedInsert_str, ih]

theorem parseAll_length : ∀ {ks : List String} {ns : List Int},
    parseAll ks = some ns → ns.length = ks.length := by
  intro ks
  induction ks with
  | nil =>
      intro ns h
      simp only [parseAll] at h
      cases h
      rfl
  | cons k ks ih =>
      intro ns h
      rcases hp : parseIntStr k with _ | n <;>
        rcases ha : parseAll ks with _ | ns' <;> simp [parseAll, hp, ha] at h
      rw [← h]
      simp [ih ha]

/-! ### Behaviour of `values_sequence_from_dict` -/

/-- On the lexicographic fallback path (some key does not parse), the
function returns exactly the values ordered by lexicographic key. -/
theorem vsfd_lex (d : List (String × V)) (hnd : (d.map Prod.fst).Nodup)
    (h : ∃ k ∈ d.map Prod.fst, parseIntStr k = none) :
    values_sequence_from_dict d = some (specLexOrder d) := by
  have hpa : parseAll (d.map Prod.fst) = none := parseAll_eq_none_iff.mpr h
  unfold values_sequence_from_dict
  rw [hpa, ← map_fst_insertionSort_str d]
  rw [seqOf_eq_map (fun p hp =>
    lookup_eq_some_of_mem hnd ((List.perm_insertionSort _ d).subset hp))]
  rfl

/-- On the numeric path with canonically-written keys, the function
returns exactly the values ordered by ascending parsed key. -/
theorem vsfd_numeric (d : List (String × V)) (hnd : (d.map Prod.fst).Nodup)
    (hall : ∀ k ∈ d.map Prod.fst, (parseIntStr k).isSome)
    (hcan : ∀ k ∈ d.map Prod.fst, (parseIntStr k).map toString = some k) :
    values_sequence_from_dict d = some (specNumericOrder d) := by
  have hpa := parseAll_eq_filterMap hall
  have hform : values_sequence_from_dict d =
      seqOf d ((((d.map Prod.fst).filterMap parseIntStr).insertionSort
        (· ≤ ·)).map toString) := by
    unfold values_sequence_from_dict
    rw [hpa]
  rw [hform]
  have hints : (d.map Prod.fst).filterMap parseIntStr =
      (d.filterMap (fun p => (parseIntStr p.1).map (fun n => (n, p.2)))).map Prod.fst := by
    rw [List.map_filterMap, List.filterMap_map]
    congr 1
    funext p
    rcases h : parseIntStr p.1 with _ | n <;> simp [h]
  rw [hints, ← map_fst_insertionSort_int]
  have hmaps : (((d.filterMap
        (fun p => (parseIntStr p.1).map (fun n => (n, p.2)))).insertionSort
          (fun p q : Int × V => p.1 ≤ q.1)).map Prod.fst).map toString =
      (((d.filterMap
        (fun p => (parseIntStr p.1).map (fun n => (n, p.2)))).insertionSort
          (fun p q : Int × V => p.1 ≤ q.1)).map
            (fun p => (toString p.1, p.2))).map Prod.fst := by
    simp [List.map_map, Function.comp]
  rw [hmaps]
  rw [seqOf_eq_map ?hlook]
  case hlook =>
    intro q hq
    obtain ⟨p, hpQ, rfl⟩ := List.mem_map.mp hq
    have hpd : p ∈ d.filterMap (fun p => (parseIntStr p.1).map (fun n => (n, p.2))) :=
      (List.perm_insertionSort _ _).subset hpQ
    obtain ⟨pk, hpk_mem, hpk_eq⟩ := List.mem_filterMap.mp hpd
    rcases hp : parseIntStr pk.1 with _ | n
    · rw [hp] at hpk_eq; cases hpk_eq
    · rw [hp] at hpk_eq
      simp only [Option.map_some', Option.map_some, Option.some.injEq] at hpk_eq
      have hc := hcan pk.1 (List.mem_map_of_mem Prod.fst hpk_mem)
      rw [hp] at hc
      simp only [Option.map_some', Option.map_some, Option.some.injEq] at hc
      subst hpk_eq
      simp only
      rw [hc]
      exact lookup_eq_some_of_mem hnd (by simpa using hpk_mem)
  · simp only [List.map_map, Function.comp]
    rfl

/-- Length preservation: a successfully built value sequence has one entry
per dictionary entry. -/
theorem vsfd_length {d : List (String × V)} {vs : List V}
    (h : values_sequence_from_dict d = some vs) : vs.length = d.length := by
  unfold values_sequence_from_dict at h
  rcases hpa : parseAll (d.map Prod.fst) with _ | ints <;> rw [hpa] at h
  · have := seqOf_length h
    calc vs.length = _ := this
      _ = d.length := by
        rw [(List.perm_insertionSort _ _).length_eq]
        simp
  · have := seqOf_length h
    calc vs.length = _ := this
      _ = d.length := by
        rw [List.length_map, (List.perm_insertionSort _ _).length_eq,
          parseAll_length hpa]
        simp

/-- Failure characterization: building the value sequence fails (an
uncaught `KeyError`) exactly when every key parses but some parsed key's
canonical string form is absent from the dictionary. -/
theorem vsfd_eq_none_iff (d : List (String × V)) :
    values_sequence_from_dict d = none ↔
      ∃ ints, parseAll (d.map Prod.fst) = some ints ∧
        ∃ n ∈ ints, List.lookup (toString n) d = none := by
  unfold values_sequence_from_dict
  rcases hpa : parseAll (d.map Prod.fst) with _ | ints
  · simp only
    constructor
    · intro h
      obtain ⟨k, hk, hl⟩ := seqOf_eq_none_iff.mp h
      have hk' : k ∈ d.map Prod.fst := (List.perm_insertionSort _ _).subset hk
      have := lookup_isSome_of_mem_keys hk'
      rw [hl] at this
      cases this
    · rintro ⟨ints, hints, -⟩
      cases hints
  · simp only
    constructor
    · intro h
      obtain ⟨k, hk, hl⟩ := seqOf_eq_none_iff.mp h
      obtain ⟨n, hn, rfl⟩ := List.mem_map.mp hk
      exact ⟨ints, rfl, n, (List.perm_insertionSort _ _).subset hn, hl⟩
    · rintro ⟨ints', hints, n, hn, hl⟩
      cases hints
      refine seqOf_eq_none_iff.mpr ⟨toString n, ?_, hl⟩
      exact List.mem_map_of_mem toString ((List.perm_insertionSort _ _).mem_iff.mpr hn)

/-! ### LCS and classifier lemmas -/

/-- Every element the backtrace returns occurs in both sequences. -/
theorem mem_lcsBT [DecidableEq α] (s1 s2 : List α) :
    ∀ i j, ∀ x ∈ lcsBT s1 s2 i j, x ∈ s1 ∧ x ∈ s2 := by
  intro i j
  induction i, j using lcsBT.induct s1 s2 with
  | case1 j => simp [lcsBT]
  | case2 i => simp [lcsBT]
  | case3 i j b hb ha ih =>
      intro x hx
      rw [show lcsBT s1 s2 (i+1) (j+1) = lcsBT s1 s2 i j ++ [b] from by
        simp [lcsBT, ha, hb]] at hx
      rcases List.mem_append.mp hx with hx | hx
      · exact ih x hx
      · simp only [List.mem_singleton] at hx
        subst hx
        exact ⟨List.getElem?_mem ha, List.getElem?_mem hb⟩
  | case4 i j a b hb ha hne hgt ih =>
      intro x hx
      rw [show lcsBT s1 s2 (i+1) (j+1) = lcsBT s1 s2 i (j+1) from by
        simp [lcsBT, ha, hb, hne, hgt]] at hx
      exact ih x hx
  | case5 i j a b hb ha hne hgt ih =>
      intro x hx
      rw [show lcsBT s1 s2 (i+1) (j+1) = lcsBT s1 s2 (i+1) j from by
        simp [lcsBT, ha, hb, hne, hgt]] at hx
      exact ih x hx
  | case6 i j hcontra =>
      intro x hx
      have hnil : lcsBT s1 s2 (i+1) (j+1) = [] := by
        rcases h1 : s1[i]? with _ | a <;> rcases h2 : s2[j]? with _ | b
        · simp [lcsBT, h1, h2]
        · simp [lcsBT, h1, h2]
        · simp [lcsBT, h1, h2]
        · exact (hcontra a b h1 h2).elim
      rw [hnil] at hx
      cases hx

theorem mem_longest_common_subsequence [DecidableEq α] {s1 s2 : List α}
    {x : α} (h : x ∈ longest_common_subsequence s1 s2) : x ∈ s1 ∧ x ∈ s2 :=
  mem_lcsBT s1 s2 _ _ x h

theorem isValueCorrect_lookup [DecidableEq V] {std rsp : List (Nat × V)}
    {k : Nat} (h : isValueCorrect std rsp k = true) :
    ∃ v, List.lookup k std = some v ∧ List.lookup k rsp = some v := by
  unfold isValueCorrect at h
  rcases h1 : List.lookup k std with _ | sv <;> rw [h1] at h
  · cases h
  · rcases h2 : List.lookup k rsp with _ | rv <;> rw [h2] at h
    · cases h
    · simp only [decide_eq_true_eq] at h
      exact ⟨sv, rfl, by rw [h]⟩

theorem lookup_some_imp_mem_keys [BEq κ] [LawfulBEq κ] {d : List (κ × V)}
    {k : κ} {v : V} (h : List.lookup k d = some v) : k ∈ d.map Prod.fst := by
  induction d with
  | nil => simp [List.lookup] at h
  | cons p d ih =>
      obtain ⟨k', v'⟩ := p
      by_cases hk : k = k'
      · subst hk; simp
      · have hbeq : (k == k') = false := beq_eq_false_iff_ne.mpr hk
        simp only [List.lookup, hbeq] at h
        simp [ih h]

theorem mem_sortedKeys_iff {d : List (Nat × V)} {k : Nat} :
    k ∈ sortedKeys d ↔ k ∈ keysOf d :=
  (List.perm_insertionSort _ _).mem_iff

theorem correct_model_keys_subset [DecidableEq V] {std rsp : List (Nat × V)}
    {k : Nat} (h : k ∈ correct_model_keys std rsp) :
    k ∈ sortedKeys std ∧ isValueCorrect std rsp k = true := by
  obtain ⟨hmem, hval⟩ := List.mem_filter.mp h
  obtain ⟨v, hstd, -⟩ := isValueCorrect_lookup hval
  exact ⟨mem_sortedKeys_iff.mpr (lookup_some_imp_mem_keys hstd), hval⟩

theorem mem_correct_keys_missing_iff [DecidableEq V]
    {std rsp : List (Nat × V)} {k : Nat} :
    k ∈ correct_keys_missing std rsp ↔ k ∈ correct_model_keys std rsp := by
  unfold correct_keys_missing correct_model_keys
  rw [List.mem_filter, List.mem_filter, ← mem_sortedKeys_iff]

theorem anchorKeys_subset [DecidableEq V] {std rsp : List (Nat × V)}
    {k : Nat} (h : k ∈ anchorKeys std rsp) :
    k ∈ sortedKeys std ∧ k ∈ correct_model_keys std rsp :=
  mem_longest_common_subsequence h

theorem scanLeft_eq_none_iff (mk anc : List Nat) :
    ∀ n, scanLeft mk anc n = none ↔ ∀ i < n, ¬ anchorAt mk anc i := by
  intro n
  induction n with
  | zero => simp [scanLeft]
  | succ n ih =>
      rcases h : mk[n]? with _ | v
      · rw [show scanLeft mk anc (n+1) = scanLeft mk anc n from by
          simp [scanLeft, h]]
        rw [ih]
        constructor
        · intro hall i hi
          rcases Nat.lt_succ_iff_lt_or_eq.mp hi with hi | rfl
          · exact hall i hi
          · rintro ⟨w, hw, -⟩
            rw [h] at hw
            cases hw
        · intro hall i hi
          exact hall i (Nat.lt_succ_of_lt hi)
      · by_cases hv : v ∈ anc
        · rw [show scanLeft mk anc (n+1) = some v from by simp [scanLeft, h, hv]]
          constructor
          · intro hc; cases hc
          · intro hall
            exact absurd ⟨v, h, hv⟩ (hall n (Nat.lt_succ_self n))
        · rw [show scanLeft mk anc (n+1) = scanLeft mk anc n from by
            simp [scanLeft, h, hv]]
          rw [ih]
          constructor
          · intro hall i hi
            rcases Nat.lt_succ_iff_lt_or_eq.mp hi with hi | rfl
            · exact hall i hi
            · rintro ⟨w, hw, hwa⟩
              rw [h] at hw
              cases hw
              exact hv hwa
          · intro hall i hi
            exact hall i (Nat.lt_succ_of_lt hi)

/-- The downward scan returns the anchor at the greatest position below
`n`, when one exists. -/
theorem scanLeft_eq_some (mk anc : List Nat) :
    ∀ n l, scanLeft mk anc n = some l →
      ∃ i < n, mk[i]? = some l ∧ l ∈ anc ∧
        ∀ i', i < i' → i' < n → ¬ anchorAt mk anc i' := by
  intro n
  induction n with
  | zero => intro l h; cases h
  | succ n ih =>
      intro l h
      rcases hm : mk[n]? with _ | v
      · rw [show scanLeft mk anc (n+1) = scanLeft mk anc n from by
          simp [scanLeft, hm]] at h
        obtain ⟨i, hi, hmi, hanc, hmax⟩ := ih l h
        refine ⟨i, Nat.lt_succ_of_lt hi, hmi, hanc, fun i' hlt hlt' => ?_⟩
        rcases Nat.lt_succ_iff_lt_or_eq.mp hlt' with hlt' | rfl
        · exact hmax i' hlt hlt'
        · rintro ⟨w, hw, -⟩
          rw [hm] at hw
          cases hw
      · by_cases hv : v ∈ anc
        · rw [show scanLeft mk anc (n+1) = some v from by
            simp [scanLeft, hm, hv]] at h
          cases h
          exact ⟨n, Nat.lt_succ_self n, hm, hv, fun i' hlt hlt' => by omega⟩
        · rw [show scanLeft mk anc (n+1) = scanLeft mk anc n from by
            simp [scanLeft, hm, hv]] at h
          obtain ⟨i, hi, hmi, hanc, hmax⟩ := ih l h
          refine ⟨i, Nat.lt_succ_of_lt hi, hmi, hanc, fun i' hlt hlt' => ?_⟩
          rcases Nat.lt_succ_iff_lt_or_eq.mp hlt' with hlt' | rfl
          · exact hmax i' hlt hlt'
          · rintro ⟨w, hw, hwa⟩
            rw [hm] at hw
            cases hw
            exact hv hwa

theorem scanRightAux_eq_none_iff (mk anc : List Nat) :
    ∀ c i, mk.length - i ≤ c →
      (scanRightAux mk anc c i = none ↔ ∀ j, i ≤ j → ¬ anchorAt mk anc j) := by
  intro c
  induction c with
  | zero =>
      intro i hc
      simp only [scanRightAux, true_iff]
      intro j hj
      rintro ⟨v, hv, -⟩
      rw [List.getElem?_eq_none (by omega)] at hv
      cases hv
  | succ c ih =>
      intro i hc
      rcases hm : mk[i]? with _ | v
      · have hlen : mk.length ≤ i := by
          by_contra hlt
          rw [List.getElem?_eq_getElem (by omega)] at hm
          cases hm
        rw [show scanRightAux mk anc (c+1) i = none from by
          simp [scanRightAux, hm]]
        simp only [true_iff]
        intro j hj
        rintro ⟨w, hw, -⟩
        rw [List.getElem?_eq_none (by omega)] at hw
        cases hw
      · have hlt : i < mk.length := by
          by_contra hge
          rw [List.getElem?_eq_none (by omega)] at hm
          cases hm
        by_cases hv : v ∈ anc
        · rw [show scanRightAux mk anc (c+1) i = some v from by
            simp [scanRightAux, hm, hv]]
          constructor
          · intro hcon; cases hcon
          · intro hall
            exact absurd ⟨v, hm, hv⟩ (hall i (le_refl i))
        · rw [show scanRightAux mk anc (c+1) i = scanRightAux mk anc c (i+1) from by
            simp [scanRightAux, hm, hv]]
          rw [ih (i+1) (by omega)]
          constructor
          · intro hall j hj
            rcases Nat.lt_or_ge i j with hij | hij
            · exact hall j (by omega)
            · have : j = i := by omega
              subst this
              rintro ⟨w, hw, hwa⟩
              rw [hm] at hw
              cases hw
              exact hv hwa
          · intro hall j hj
            exact hall j (by omega)

theorem scanRight_eq_none_iff (mk anc : List Nat) (i : Nat) :
    scanRight mk anc i = none ↔ ∀ j, i ≤ j → ¬ anchorAt mk anc j :=
  scanRightAux_eq_none_iff mk anc (mk.length - i) i (le_refl _)

theorem scanRightAux_eq_some (mk anc : List Nat) :
    ∀ c i r, mk.length - i ≤ c → scanRightAux mk anc c i = some r →
      ∃ j, i ≤ j ∧ mk[j]? = some r ∧ r ∈ anc ∧
        ∀ j', i ≤ j' → j' < j → ¬ anchorAt mk anc j' := by
  intro c
  induction c with
  | zero => intro i r _ h; cases h
  | succ c ih =>
      intro i r hc h
      rcases hm : mk[i]? with _ | v
      · rw [show scanRightAux mk anc (c+1) i = none from by
          simp [scanRightAux, hm]] at h
        cases h
      · by_cases hv : v ∈ anc
        · rw [show scanRightAux mk anc (c+1) i = some v from by
            simp [scanRightAux, hm, hv]] at h
          cases h
          exact ⟨i, le_refl i, hm, hv, fun j' h1 h2 => by omega⟩
        · rw [show scanRightAux mk anc (c+1) i = scanRightAux mk anc c (i+1) from by
            simp [scanRightAux, hm, hv]] at h
          obtain ⟨j, hj, hmj, hanc, hmax⟩ := ih (i+1) r (by omega) h
          refine ⟨j, by omega, hmj, hanc, fun j' h1 h2 => ?_⟩
          rcases Nat.lt_or_ge i j' with hij | hij
          · exact hmax j' (by omega) h2
          · have : j' = i := by omega
            subst this
            rintro ⟨w, hw, hwa⟩
            rw [hm] at hw
            cases hw
            exact hv hwa

theorem scanRight_eq_some (mk anc : List Nat) (i r : Nat)
    (h : scanRight mk anc i = some r) :
    ∃ j, i ≤ j ∧ mk[j]? = some r ∧ r ∈ anc ∧
      ∀ j', i ≤ j' → j' < j → ¬ anchorAt mk anc j' :=
  scanRightAux_eq_some mk anc (mk.length - i) i r (le_refl _) h

/-! ### The classification partition -/

theorem mem_misorder_iff [DecidableEq V] {std rsp : List (Nat × V)} {k : Nat} :
    k ∈ misorder_keys std rsp ↔
      (k ∈ correct_model_keys std rsp ∧ k ∉ anchorKeys std rsp) := by
  unfold misorder_keys
  rw [List.mem_filter]
  simp

theorem mem_missing_iff [DecidableEq V] {std rsp : List (Nat × V)} {k : Nat} :
    k ∈ missing_keys std rsp ↔
      (k ∈ sortedKeys std ∧ k ∉ correct_model_keys std rsp) := by
  unfold missing_keys
  rw [List.mem_filter]
  simp [mem_correct_keys_missing_iff]

theorem vsfd_nil : values_sequence_from_dict ([] : List (String × V)) = some [] :=
  rfl

theorem accuracyOf_eq_formula [DecidableEq V] (s t : List V) :
    accuracyOf s t = (if max s.length t.length = 0 then 0 else
      (1 - (calculate_edit_distance s t true : ℚ) /
        (max s.length t.length : ℚ)) * 100) := by
  unfold accuracyOf
  by_cases h : 0 < max s.length t.length
  · rw [if_pos h, if_neg (by omega)]
  · rw [if_neg h, if_pos (by omega)]

theorem accuracyOf_bounds [DecidableEq V] (s t : List V) :
    0 ≤ accuracyOf s t ∧ accuracyOf s t ≤ 100 := by
  unfold accuracyOf
  by_cases h : 0 < max s.length t.length
  · rw [if_pos h]
    have hd : calculate_edit_distance s t true ≤ max s.length t.length := by
      rw [calculate_edit_distance_eq_lev]
      exact lev_le_max_length s t
    have hcast : (0 : ℚ) < (max s.length t.length : ℚ) := by exact_mod_cast h
    have hdc : (calculate_edit_distance s t true : ℚ) ≤
        (max s.length t.length : ℚ) := by exact_mod_cast hd
    have h1 : (calculate_edit_distance s t true : ℚ) /
        (max s.length t.length : ℚ) ≤ 1 := (div_le_one hcast).mpr hdc
    have h0 : 0 ≤ (calculate_edit_distance s t true : ℚ) /
        (max s.length t.length : ℚ) := by positivity
    constructor <;> nlinarith
  · rw [if_neg h]
    norm_num

theorem accuracyOf_self [DecidableEq V] {s : List V} (h : s ≠ []) :
    accuracyOf s s = 100 := by
  unfold accuracyOf
  have hlen : 0 < s.length := List.length_pos.mpr h
  rw [if_pos (by rw [Nat.max_self]; exact hlen)]
  rw [calculate_edit_distance_eq_lev, lev_self]
  simp

/-! ## Claim theorems -/

/-- **C1** (counterexample): the spec claims the backtrace breaks the tie
`dp[i-1][j] == dp[i][j-1]` by decrementing the row index `i`.  On
`seqA = [1,2]`, `seqB = [2,1]` the final cell is such a tie; the source
returns index set `[1]` (it kept the row and decremented the column),
whereas the spec's row-decrementing backtrace, modelled as
`alignIndicesSpecTie`, returns `[0]`. -/
theorem claim1_counterexample :
    longest_common_subsequence_with_indices [1, 2] [2, 1] = [1] ∧
    alignIndicesSpecTie [1, 2] [2, 1] = [0] ∧
    longest_common_subsequence_with_indices [1, 2] [2, 1] ≠
      alignIndicesSpecTie [1, 2] [2, 1] := by
  refine ⟨?_, ?_, ?_⟩
  · simp [longest_common_subsequence_with_indices, lcsBTIdx, lcsDP]
  · simp [alignIndicesSpecTie, lcsBTIdxSpecTie, lcsDP]
  · simp [longest_common_subsequence_with_indices, lcsBTIdx,
      alignIndicesSpecTie, lcsBTIdxSpecTie, lcsDP]

/-- **C1** (amended): in the LCS backtrace, at a mismatch cell where the
neighbours tie (`dp[i-1][j] == dp[i][j-1]`), the walk decrements the
**column** index `j` (moving toward a smaller `seqB` index), keeping the
row; the row moves only under the strict test `dp[i-1][j] > dp[i][j-1]`.
This deterministic tie-break fixes which equal-length LCS index set is
returned, and holds for the index-collecting and key-collecting backtraces
alike. -/
theorem claim1_tie_decrements_column [DecidableEq α] (s1 s2 : List α)
    (i j : Nat) (a b : α) (ha : s1[i]? = some a) (hb : s2[j]? = some b)
    (hab : a ≠ b) (htie : lcsDP s1 s2 i (j+1) = lcsDP s1 s2 (i+1) j) :
    lcsBTIdx s1 s2 (i+1) (j+1) = lcsBTIdx s1 s2 (i+1) j ∧
    lcsBT s1 s2 (i+1) (j+1) = lcsBT s1 s2 (i+1) j := by
  constructor
  · simp [lcsBTIdx, ha, hb, hab, htie]
  · simp [lcsBT, ha, hb, hab, htie]

/-- **C1** witness: the amended tie-break theorem applied at the concrete
tie cell `(2,2)` of `seqA = [1,2]`, `seqB = [2,1]`. -/
theorem claim1_tie_decrements_column_witness :
    lcsBTIdx [1, 2] [2, 1] 2 2 = lcsBTIdx [1, 2] [2, 1] 2 1 ∧
    lcsBT [1, 2] [2, 1] 2 2 = lcsBT [1, 2] [2, 1] 2 1 :=
  claim1_tie_decrements_column [1, 2] [2, 1] 1 1 2 1 (by decide) (by decide)
    (by decide) (by simp [lcsDP])

/-- **C4** (counterexample): for `standard={"0":"A","1":"B"}`,
`response={"0":"B","1":"A"}` the spec claims `correctModelKeys = {0,1}`.
The code compares each response value with the standard value **at the
same key**, so no key is value-correct and `correct_model_keys` is
empty. -/
theorem claim4_counterexample :
    correct_model_keys [(0, "A"), (1, "B")] [(0, "B"), (1, "A")] = [] ∧
    ¬ (0 : Nat) ∈ correct_model_keys [(0, "A"), (1, "B")] [(0, "B"), (1, "A")] := by
  refine ⟨by decide, by decide⟩

/-- **C4** (amended): for the swapped record `standard={"0":"A","1":"B"}`,
`response={"0":"B","1":"A"}`, classification yields an empty
`correct_model_keys`, an empty anchor set, no Correct and no Misorder key,
and both reference keys labelled Missing. -/
theorem claim4_swapped_record :
    correct_model_keys [(0, "A"), (1, "B")] [(0, "B"), (1, "A")] = [] ∧
    anchorKeys [(0, "A"), (1, "B")] [(0, "B"), (1, "A")] = [] ∧
    misorder_keys [(0, "A"), (1, "B")] [(0, "B"), (1, "A")] = [] ∧
    missing_keys [(0, "A"), (1, "B")] [(0, "B"), (1, "A")] = [0, 1] := by
  refine ⟨by decide, ?_, ?_, by decide⟩
  · simp [anchorKeys, longest_common_subsequence, lcsBT, correct_model_keys,
      sortedKeys, keysOf, isValueCorrect, List.insertionSort,
      List.orderedInsert, List.lookup]
  · simp [misorder_keys, correct_model_keys, sortedKeys, keysOf,
      isValueCorrect, List.insertionSort, List.orderedInsert, List.lookup]

/-- **C3**: for every record, the three label sets — Correct (anchors),
Misorder (value-correct but not in the LCS), Missing (standard keys with
no value-correct occurrence) — are pairwise disjoint and cover exactly the
reference keys. -/
theorem claim3_partition [DecidableEq V] (std rsp : List (Nat × V)) (k : Nat) :
    (k ∈ sortedKeys std ↔
      (k ∈ anchorKeys std rsp ∨ k ∈ misorder_keys std rsp ∨
        k ∈ missing_keys std rsp)) ∧
    ¬(k ∈ anchorKeys std rsp ∧ k ∈ misorder_keys std rsp) ∧
    ¬(k ∈ anchorKeys std rsp ∧ k ∈ missing_keys std rsp) ∧
    ¬(k ∈ misorder_keys std rsp ∧ k ∈ missing_keys std rsp) := by
  refine ⟨?_, ?_, ?_, ?_⟩
  · constructor
    · intro hk
      by_cases hc : k ∈ correct_model_keys std rsp
      · by_cases hanc : k ∈ anchorKeys std rsp
        · exact Or.inl hanc
        · exact Or.inr (Or.inl (mem_misorder_iff.mpr ⟨hc, hanc⟩))
      · exact Or.inr (Or.inr (mem_missing_iff.mpr ⟨hk, hc⟩))
    · rintro (hk | hk | hk)
      · exact (anchorKeys_subset hk).1
      · exact (correct_model_keys_subset (mem_misorder_iff.mp hk).1).1
      · exact (mem_missing_iff.mp hk).1
  · rintro ⟨h1, h2⟩
    exact (mem_misorder_iff.mp h2).2 h1
  · rintro ⟨h1, h2⟩
    exact (mem_missing_iff.mp h2).2 (anchorKeys_subset h1).2
  · rintro ⟨h1, h2⟩
    exact (mem_missing_iff.mp h2).2 (mem_misorder_iff.mp h1).1

/-- **C2** (counterexample): the record `standard={"0":"A"}`,
`response={"1":"X"}` has the hallucinated key 1, but the code's skip
branch (`left_anchor is None and right_anchor is None`) drops it: no
interval is emitted, contradicting "No hallucinated key is left without an
emitted interval" (the claimed interval would be `(0, 41)`). -/
theorem claim2_counterexample :
    hallucination_keys [(0, "A")] [(1, "X")] = [1] ∧
    interval_for_key [(0, "A")] [(1, "X")] 1 = none ∧
    hallucination_intervals [(0, "A")] [(1, "X")] = [] := by
  refine ⟨by decide, ?_, ?_⟩
  · simp [interval_for_key, hallucination_keys, sortedKeys, keysOf,
      anchorKeys, correct_model_keys, longest_common_subsequence, lcsBT,
      lcsDP, isValueCorrect, scanLeft, scanRight, scanRightAux,
      List.indexOf, List.findIdx_cons, List.insertionSort,
      List.orderedInsert, List.lookup]
  · simp [hallucination_intervals, interval_for_key, hallucination_keys,
      sortedKeys, keysOf, anchorKeys, correct_model_keys,
      longest_common_subsequence, lcsBT, lcsDP, isValueCorrect, scanLeft,
      scanRight, scanRightAux, List.indexOf, List.findIdx_cons,
      List.insertionSort, List.orderedInsert, List.lookup,
      List.filterMap_cons]

/-- **C2** (amended): for every hallucinated response key `h`, provided an
anchor exists somewhere before or after `h`'s position in response-key
order, exactly one interval is emitted for `h`: its left bound is the
nearest anchor at a position before `h` (sentinel `0` when no anchor
precedes), its right bound the nearest anchor after `h` (sentinel `41`
when no anchor follows).  When no anchor exists on either side the key is
skipped and no interval is emitted. -/
theorem claim2_interval_emission [DecidableEq V]
    (std rsp : List (Nat × V)) (h : Nat)
    (hmem : h ∈ hallucination_keys std rsp) :
    (interval_for_key std rsp h = none ↔
      ((∀ i < (sortedKeys rsp).indexOf h,
          ¬ anchorAt (sortedKeys rsp) (anchorKeys std rsp) i) ∧
       (∀ j, (sortedKeys rsp).indexOf h < j →
          ¬ anchorAt (sortedKeys rsp) (anchorKeys std rsp) j))) ∧
    (∀ l r, interval_for_key std rsp h = some (l, r) →
      ((l = 0 ∧ ∀ i < (sortedKeys rsp).indexOf h,
          ¬ anchorAt (sortedKeys rsp) (anchorKeys std rsp) i) ∨
       (∃ i < (sortedKeys rsp).indexOf h,
          (sortedKeys rsp)[i]? = some l ∧ l ∈ anchorKeys std rsp ∧
          ∀ i', i < i' → i' < (sortedKeys rsp).indexOf h →
            ¬ anchorAt (sortedKeys rsp) (anchorKeys std rsp) i')) ∧
      ((r = 41 ∧ ∀ j, (sortedKeys rsp).indexOf h < j →
          ¬ anchorAt (sortedKeys rsp) (anchorKeys std rsp) j) ∨
       (∃ j, (sortedKeys rsp).indexOf h < j ∧
          (sortedKeys rsp)[j]? = some r ∧ r ∈ anchorKeys std rsp ∧
          ∀ j', (sortedKeys rsp).indexOf h < j' → j' < j →
            ¬ anchorAt (sortedKeys rsp) (anchorKeys std rsp) j'))) := by
  have hiv : interval_for_key std rsp h =
      (match scanLeft (sortedKeys rsp) (anchorKeys std rsp)
          ((sortedKeys rsp).indexOf h),
        scanRight (sortedKeys rsp) (anchorKeys std rsp)
          ((sortedKeys rsp).indexOf h + 1) with
      | none, none => none
      | none, some r => some (0, r)
      | some l, none => some (l, 41)
      | some l, some r => some (l, r)) := rfl
  rcases hL : scanLeft (sortedKeys rsp) (anchorKeys std rsp)
      ((sortedKeys rsp).indexOf h) with _ | l₀ <;>
    rcases hR : scanRight (sortedKeys rsp) (anchorKeys std rsp)
      ((sortedKeys rsp).indexOf h + 1) with _ | r₀ <;>
    rw [hL, hR] at hiv
  · -- no anchor on either side: skipped
    refine ⟨?_, ?_⟩
    · rw [hiv]
      have h1 := (scanLeft_eq_none_iff _ _ _).mp hL
      have h2 := (scanRight_eq_none_iff _ _ _).mp hR
      exact iff_of_true rfl ⟨h1, fun j hj => h2 j (by omega)⟩
    · intro l r hlr
      rw [hiv] at hlr
      cases hlr
  · -- only a right anchor: (0, r₀)
    refine ⟨?_, ?_⟩
    · rw [hiv]
      constructor
      · intro hc; cases hc
      · rintro ⟨-, hno⟩
        have : scanRight (sortedKeys rsp) (anchorKeys std rsp)
            ((sortedKeys rsp).indexOf h + 1) = none :=
          (scanRight_eq_none_iff _ _ _).mpr (fun j hj => hno j (by omega))
        rw [hR] at this
        cases this
    · intro l r hlr
      rw [hiv] at hlr
      cases hlr
      obtain ⟨j, hj, hmj, hanc, hmax⟩ := scanRight_eq_some _ _ _ _ hR
      refine ⟨Or.inl ⟨rfl, (scanLeft_eq_none_iff _ _ _).mp hL⟩,
        Or.inr ⟨j, by omega, hmj, hanc, fun j' h1 h2 => hmax j' (by omega) h2⟩⟩
  · -- only a left anchor: (l₀, 41)
    refine ⟨?_, ?_⟩
    · rw [hiv]
      constructor
      · intro hc; cases hc
      · rintro ⟨hno, -⟩
        have : scanLeft (sortedKeys rsp) (anchorKeys std rsp)
            ((sortedKeys rsp).indexOf h) = none :=
          (scanLeft_eq_none_iff _ _ _).mpr hno
        rw [hL] at this
        cases this
    · intro l r hlr
      rw [hiv] at hlr
      cases hlr
      obtain ⟨i, hi, hmi, hanc, hmax⟩ := scanLeft_eq_some _ _ _ _ hL
      have hRnone := (scanRight_eq_none_iff _ _ _).mp hR
      refine ⟨Or.inr ⟨i, hi, hmi, hanc, hmax⟩,
        Or.inl ⟨rfl, fun j hj => hRnone j (by omega)⟩⟩
  · -- anchors on both sides: (l₀, r₀)
    refine ⟨?_, ?_⟩
    · rw [hiv]
      constructor
      · intro hc; cases hc
      · rintro ⟨hno, -⟩
        have : scanLeft (sortedKeys rsp) (anchorKeys std rsp)
            ((sortedKeys rsp).indexOf h) = none :=
          (scanLeft_eq_none_iff _ _ _).mpr hno
        rw [hL] at this
        cases this
    · intro l r hlr
      rw [hiv] at hlr
      cases hlr
      obtain ⟨i, hi, hmi, hancl, hmaxl⟩ := scanLeft_eq_some _ _ _ _ hL
      obtain ⟨j, hj, hmj, hancr, hmaxr⟩ := scanRight_eq_some _ _ _ _ hR
      exact ⟨Or.inr ⟨i, hi, hmi, hancl, hmaxl⟩,
        Or.inr ⟨j, by omega, hmj, hancr, fun j' h1 h2 => hmaxr j' (by omega) h2⟩⟩

/-- **C2** witness: for `standard={"0":"A"}`,
`response={"0":"A","1":"X"}` the key 1 is hallucinated and, by the
emission characterization, is not skipped (the anchor 0 precedes it). -/
theorem claim2_interval_emission_witness :
    1 ∈ hallucination_keys [(0, "A")] [(0, "A"), (1, "X")] ∧
    ¬ interval_for_key [(0, "A")] [(0, "A"), (1, "X")] 1 = none := by
  have hmem : 1 ∈ hallucination_keys [(0, "A")] [(0, "A"), (1, "X")] := by decide
  refine ⟨hmem, fun hnone => ?_⟩
  have happ :=
    (claim2_interval_emission [(0, "A")] [(0, "A"), (1, "X")] 1 hmem).1
  have hno := (happ.mp hnone).1
  have hpos : (sortedKeys [(0, "A"), (1, "X")]).indexOf 1 = 1 := by decide
  have hanchor : anchorAt (sortedKeys [(0, "A"), (1, "X")])
      (anchorKeys [(0, "A")] [(0, "A"), (1, "X")]) 0 := by
    refine ⟨0, by decide, ?_⟩
    simp [anchorKeys, longest_common_subsequence, lcsBT, lcsDP,
      correct_model_keys, sortedKeys, keysOf, isValueCorrect,
      List.insertionSort, List.orderedInsert, List.lookup]
  exact hno 0 (by rw [hpos]; omega) hanchor

/-- **C6** (counterexample): one record with two hallucinated keys that
map to the same interval `(0, 41)` gives that interval frequency 2 with
only one record, so the probability column is 200, outside `[0, 100]`. -/
theorem claim6_counterexample :
    halluc_frequency [([(0, "A")], [(0, "A"), (1, "X"), (2, "Y")])] (0, 41) = 2 ∧
    halluc_probability [([(0, "A")], [(0, "A"), (1, "X"), (2, "Y")])] (0, 41) = 200 ∧
    (100 : ℚ) <
      halluc_probability [([(0, "A")], [(0, "A"), (1, "X"), (2, "Y")])] (0, 41) := by
  have hfreq :
      halluc_frequency [([(0, "A")], [(0, "A"), (1, "X"), (2, "Y")])] (0, 41) = 2 := by
    simp [halluc_frequency, hallucination_intervals, hallucination_keys,
      interval_for_key, sortedKeys, keysOf, anchorKeys, correct_model_keys,
      longest_common_subsequence, lcsBT, lcsDP, isValueCorrect, scanLeft,
      scanRight, scanRightAux, List.indexOf, List.findIdx_cons,
      List.insertionSort, List.orderedInsert, List.lookup,
      List.filterMap_cons]
  have hprob :
      halluc_probability [([(0, "A")], [(0, "A"), (1, "X"), (2, "Y")])] (0, 41) = 200 := by
    simp [halluc_probability, hfreq]
    norm_num
  exact ⟨hfreq, hprob, by rw [hprob]; norm_num⟩

/-- **C6** (amended): an interval's probability `frequency/total*100` is
always nonnegative (and 0 with no records), but it is bounded by 100
exactly when the interval's frequency does not exceed the record count —
which can fail, since several hallucinations of one record may accumulate
on the same interval.  The frequency is bounded by the total number of
interval emissions across the batch. -/
theorem claim6_probability [DecidableEq V]
    (batch : List (List (Nat × V) × List (Nat × V))) (iv : Nat × Nat) :
    0 ≤ halluc_probability batch iv ∧
    (batch.length = 0 → halluc_probability batch iv = 0) ∧
    (0 < batch.length →
      (halluc_probability batch iv ≤ 100 ↔
        halluc_frequency batch iv ≤ batch.length)) ∧
    halluc_frequency batch iv ≤
      ((batch.map (fun r => hallucination_intervals r.1 r.2)).map
        List.length).sum := by
  have hcount : halluc_frequency batch iv ≤
      ((batch.map (fun r => hallucination_intervals r.1 r.2)).map
        List.length).sum := by
    unfold halluc_frequency
    calc ((batch.map (fun r => hallucination_intervals r.1 r.2)).flatten).count iv
        ≤ ((batch.map (fun r => hallucination_intervals r.1 r.2)).flatten).length :=
          List.count_le_length _ _
      _ = _ := by rw [List.length_flatten]
  by_cases hlen : 0 < batch.length
  · have hcast : (0 : ℚ) < (batch.length : ℚ) := by
      exact_mod_cast hlen
    refine ⟨?_, ?_, ?_, hcount⟩
    · unfold halluc_probability
      rw [if_pos hlen]
      positivity
    · intro h0; omega
    · intro _
      unfold halluc_probability
      rw [if_pos hlen]
      constructor
      · intro hle
        have h2 : (halluc_frequency batch iv : ℚ) / (batch.length : ℚ) ≤ 1 := by
          linarith
        have h3 : (halluc_frequency batch iv : ℚ) ≤ (batch.length : ℚ) :=
          (div_le_one hcast).mp h2
        exact_mod_cast h3
      · intro hle
        have h3 : (halluc_frequency batch iv : ℚ) ≤ (batch.length : ℚ) := by
          exact_mod_cast hle
        have h2 : (halluc_frequency batch iv : ℚ) / (batch.length : ℚ) ≤ 1 :=
          (div_le_one hcast).mpr h3
        linarith
  · refine ⟨?_, ?_, ?_, hcount⟩
    · unfold halluc_probability
      rw [if_neg hlen]
    · intro _
      unfold halluc_probability
      rw [if_neg hlen]
    · intro h; exact absurd h hlen

/-- **C6** witness: the amended probability theorem at the concrete
two-hallucination batch: probability nonnegative, and the `≤ 100`
equivalence instantiated (here the frequency 2 exceeds the single
record). -/
theorem claim6_probability_witness :
    0 ≤ halluc_probability [([(0, "A")], [(0, "A"), (1, "X"), (2, "Y")])] (0, 41) ∧
    (halluc_probability [([(0, "A")], [(0, "A"), (1, "X"), (2, "Y")])] (0, 41) ≤ 100 ↔
      halluc_frequency [([(0, "A")], [(0, "A"), (1, "X"), (2, "Y")])] (0, 41) ≤ 1) :=
  ⟨(claim6_probability [([(0, "A")], [(0, "A"), (1, "X"), (2, "Y")])] (0, 41)).1,
    (claim6_probability [([(0, "A")], [(0, "A"), (1, "X"), (2, "Y")])] (0, 41)).2.2.1
      (by decide)⟩

/-- **C5**: the accuracy `grade_answers` reports is the edit-distance
formula `(1 - distance/maxLen) * 100` with
`maxLen = max(|standardSeq|, |responseSeq|)`, always lies in `[0, 100]`,
equals `0.0` when `maxLen == 0`, and equals `0.0` (with no exception)
whenever the reference `AnswerSet` is empty. -/
theorem claim5_accuracy [DecidableEq V] :
    (∀ (standard student : List (String × V)) (ss ts : List V),
      values_sequence_from_dict standard = some ss →
      values_sequence_from_dict student = some ts →
      ∃ acc, grade_accuracy student standard = some acc ∧
        acc = (if max ss.length ts.length = 0 then 0 else
          (1 - (calculate_edit_distance ss ts true : ℚ) /
            (max ss.length ts.length : ℚ)) * 100) ∧
        0 ≤ acc ∧ acc ≤ 100 ∧ (standard = [] → acc = 0)) ∧
    (∀ student : List (String × V),
      grade_accuracy student ([] : List (String × V)) = some 0) := by
  constructor
  · intro std stu ss ts hss hts
    by_cases hstd : std = []
    · subst hstd
      have hss' : ss = [] := by
        rw [vsfd_nil] at hss
        exact (Option.some_inj.mp hss).symm
      subst hss'
      refine ⟨0, by simp [grade_accuracy], ?_, le_refl 0, by norm_num,
        fun _ => rfl⟩
      by_cases hts0 : ts = []
      · subst hts0
        simp
      · have hlen : 0 < ts.length := List.length_pos.mpr hts0
        rw [if_neg (by simp only [List.length_nil, Nat.zero_max]; omega)]
        rw [calculate_edit_distance_eq_lev, lev_nil_left]
        have hne : ((ts.length : ℚ)) ≠ 0 := by
          exact_mod_cast Nat.pos_iff_ne_zero.mp hlen
        have hmax : max ((([] : List V).length : ℚ)) ((ts.length : ℚ)) =
            (ts.length : ℚ) := by
          rw [List.length_nil, Nat.cast_zero]
          exact max_eq_right (by positivity)
        rw [hmax, div_self hne]
        norm_num
    · by_cases hstu : stu = []
      · subst hstu
        have hts' : ts = [] := by
          rw [vsfd_nil] at hts
          exact (Option.some_inj.mp hts).symm
        subst hts'
        refine ⟨0, ?_, ?_, le_refl 0, by norm_num, fun hc => absurd hc hstd⟩
        · unfold grade_accuracy
          rw [if_neg hstd, if_pos rfl]
        · have hsslen : ss.length = std.length := vsfd_length hss
          have hlen : 0 < ss.length := by
            rw [hsslen]
            exact List.length_pos.mpr hstd
          rw [if_neg (by simp only [List.length_nil, Nat.max_zero]; omega)]
          rw [calculate_edit_distance_eq_lev, lev_nil_right]
          have hne : ((ss.length : ℚ)) ≠ 0 := by
            exact_mod_cast Nat.pos_iff_ne_zero.mp hlen
          have hmax : max ((ss.length : ℚ)) ((([] : List V).length : ℚ)) =
              (ss.length : ℚ) := by
            rw [List.length_nil, Nat.cast_zero]
            exact max_eq_left (by positivity)
          rw [hmax, div_self hne]
          norm_num
      · have hmain : grade_accuracy stu std = some (accuracyOf ss ts) := by
          unfold grade_accuracy
          rw [if_neg hstd, if_neg hstu, hss, hts]
        exact ⟨accuracyOf ss ts, hmain, accuracyOf_eq_formula ss ts,
          (accuracyOf_bounds ss ts).1, (accuracyOf_bounds ss ts).2,
          fun hc => absurd hc hstd⟩
  · intro stu
    simp [grade_accuracy]

/-- **C5** witness: the accuracy theorem at the one-entry identical record
(both sequences build successfully and the accuracy is within bounds). -/
theorem claim5_accuracy_witness :
    ∃ acc, grade_accuracy [("0", "A")] [("0", "A")] = some acc ∧
      0 ≤ acc ∧ acc ≤ 100 := by
  obtain ⟨acc, h1, h2, h3, h4, h5⟩ :=
    (claim5_accuracy (V := String)).1 [("0", "A")] [("0", "A")] ["A"] ["A"]
      (by decide) (by decide)
  exact ⟨acc, h1, h3, h4⟩

/-- **C7** (counterexample): the key `"01"` parses as the integer 1, so
the numeric branch is taken, but the lookup `d[str(1)] = d["1"]` raises a
`KeyError` that the `except (ValueError, TypeError)` clause does not
catch: `values_sequence_from_dict` is not total. -/
theorem claim7_counterexample :
    values_sequence_from_dict [("01", "A")] = none := by decide

/-- **C7** (amended): building the value sequence fails (an uncaught
`KeyError`) exactly when every key parses as an integer but the canonical
string form of some parsed key is absent from the dictionary; in
particular the lexicographic fallback path never raises, and an empty
`AnswerSet` yields an empty sequence. -/
theorem claim7_totality :
    (∀ (V : Type) (d : List (String × V)),
      values_sequence_from_dict d = none ↔
        ∃ ints, parseAll (d.map Prod.fst) = some ints ∧
          ∃ n ∈ ints, List.lookup (toString n) d = none) ∧
    (∀ V : Type, values_sequence_from_dict ([] : List (String × V)) = some []) :=
  ⟨fun _ d => vsfd_eq_none_iff d, fun _ => rfl⟩

/-- **C8** (counterexample): in `{"01": "A", "2": "B"}` every key parses
as an integer, yet no value sequence ordered by numeric key is returned —
the numeric branch raises `KeyError` on the non-canonical key. -/
theorem claim8_counterexample :
    (∀ k ∈ ([("01", "A"), ("2", "B")] : List (String × String)).map Prod.fst,
      (parseIntStr k).isSome) ∧
    values_sequence_from_dict [("01", "A"), ("2", "B")] = none :=
  ⟨by decide, by decide⟩

/-- **C8** (amended): the ordering policy is all-or-nothing.  If any key
fails to parse as an integer, all entries are ordered by lexicographic
comparison of the raw keys.  If every key parses **and every key is the
canonical decimal string of its integer**, the entries are ordered by
ascending numeric key.  No input produces a mixed per-key ordering (the
only remaining behaviour, for non-canonical parsable keys, is the
`KeyError` of C7). -/
theorem claim8_ordering (V : Type) (d : List (String × V))
    (hnd : (d.map Prod.fst).Nodup) :
    ((∃ k ∈ d.map Prod.fst, parseIntStr k = none) →
      values_sequence_from_dict d = some (specLexOrder d)) ∧
    ((∀ k ∈ d.map Prod.fst, (parseIntStr k).isSome) →
     (∀ k ∈ d.map Prod.fst, (parseIntStr k).map toString = some k) →
      values_sequence_from_dict d = some (specNumericOrder d)) :=
  ⟨fun h => vsfd_lex d hnd h, fun h1 h2 => vsfd_numeric d hnd h1 h2⟩

/-- **C8** witness: the ordering theorem applied to a numeric dictionary
(sorted by parsed key) and to a non-numeric dictionary (sorted
lexicographically). -/
theorem claim8_ordering_witness :
    values_sequence_from_dict [("1", "A"), ("0", "B")] =
      some (specNumericOrder [("1", "A"), ("0", "B")]) ∧
    values_sequence_from_dict [("b", "A"), ("a", "B")] =
      some (specLexOrder [("b", "A"), ("a", "B")]) :=
  ⟨(claim8_ordering String [("1", "A"), ("0", "B")] (by decide)).2
      (by decide) (by decide),
   (claim8_ordering String [("b", "A"), ("a", "B")] (by decide)).1
      ⟨"b", by decide, by decide⟩⟩

/-- **C9**: `calculate_edit_distance` without transposition is a metric:
it vanishes on identical sequences (and the accuracy of a nonempty
sequence against itself is 100), it is symmetric, and it satisfies the
triangle inequality. -/
theorem claim9_metric [DecidableEq α] (s a b c : List α) :
    calculate_edit_distance s s false = 0 ∧
    calculate_edit_distance a b false = calculate_edit_distance b a false ∧
    calculate_edit_distance a c false ≤
      calculate_edit_distance a b false + calculate_edit_distance b c false ∧
    (s ≠ [] → accuracyOf s s = 100) := by
  simp only [calculate_edit_distance_eq_lev]
  exact ⟨lev_self s, lev_symm a b, lev_triangle a b c,
    fun h => accuracyOf_self h⟩

/-- **C9** witness: the metric theorem at concrete one-element
sequences. -/
theorem claim9_metric_witness :
    calculate_edit_distance [1] [1] false = 0 ∧ accuracyOf [1] [1] = 100 :=
  ⟨(claim9_metric [1] [1] [1] [1]).1,
    (claim9_metric [1] [1] [1] [1]).2.2.2 (by decide)⟩

/-- **C10**: the `allow_transposition` flag has no effect — the
transposition branch is a quoted-out string literal — and for either flag
value the function returns the classical Levenshtein distance. -/
theorem claim10_transposition_flag_inert [DecidableEq α]
    (seq1 seq2 : List α) (b1 b2 : Bool) :
    calculate_edit_distance seq1 seq2 b1 = calculate_edit_distance seq1 seq2 b2 ∧
    calculate_edit_distance seq1 seq2 b1 = lev seq1 seq2 := by
  rw [calculate_edit_distance_eq_lev, calculate_edit_distance_eq_lev]
  exact ⟨rfl, rfl⟩

end NIAH

